import Mathlib

/-!
Shallow embedding of the original helper code of the openvino_notebooks
repository (notebooks 245-typo-detector, 244-named-entity-recognition and
227-whisper-subtitles-generation), together with theorems settling the
specification claims about that code.

Python strings (tokens and sentences alike) are embedded as `List Char`, Python ints as `Int` (the
`word_count` variable can be negative), Python dicts as insertion-ordered
association lists, and fallible Python code as `Except PyError`.
-/

namespace OVNB

/-- Kinds of Python exception the embedded helpers can raise. -/
inductive PyError where
  | indexError
  | keyError
  | valueError
deriving DecidableEq, Repr

/-- Insertion into a Python dict: overwrites the value at an existing key in
place, otherwise appends the new binding at the end (Python dicts keep
insertion order). -/
def dictInsert : List (List Char × Int) → List Char → Int → List (List Char × Int)
  | [], k, v => [(k, v)]
  | (k', v') :: rest, k, v =>
    if k' = k then (k, v) :: rest else (k', v') :: dictInsert rest k v

/-- Lookup in a Python dict embedded as an association list. -/
def dictLookup : List (List Char × Int) → List Char → Option Int
  | [], _ => none
  | (k', v') :: rest, k => if k' = k then some v' else dictLookup rest k

/-- Embedding of the literal "##" marking a continuation sub-word token. -/
def hhTok : List Char := ['#', '#']

/-- Loop body of `token_to_words` from 245-typo-detector: `wc` is the running
`word_count` and `m` the dict built so far. -/
def token_to_words_aux : List (List Char) → Int → List (List Char × Int) → List (List Char × Int)
  | [], _, m => m
  | t :: ts, wc, m =>
    if hhTok.isPrefixOf t then token_to_words_aux ts wc (dictInsert m t wc)
    else token_to_words_aux ts (wc + 1) (dictInsert m t (wc + 1))

/-- `token_to_words` from 245-typo-detector: starts `word_count` at `-1`,
increments it at each token not starting with `##`, and stores the current
count for every token. -/
def token_to_words (tokens : List (List Char)) : List (List Char × Int) :=
  token_to_words_aux tokens (-1) []

/-- Number of tokens of the list that do not start with `##`, i.e. the number
of distinct originating words the tokenizer produced. -/
def countWords (tokens : List (List Char)) : Nat :=
  (tokens.filter (fun t => !(hhTok.isPrefixOf t))).length

/-- Word index the loop of `token_to_words` assigns when it processes position
`i`: the number of non-`##` tokens at or before `i`, minus one. -/
def wordIndexAt (tokens : List (List Char)) (i : Nat) : Int :=
  (countWords (tokens.take (i + 1)) : Int) - 1

/-- Scan of `np.argmax`: `i` is the position of the next element, `best` the
index of the running maximum `m` (ties keep the earlier index). -/
def argmaxAux : List Int → Nat → Nat → Int → Nat
  | [], _, best, _ => best
  | y :: ys, i, best, m =>
    if y > m then argmaxAux ys (i + 1) i y else argmaxAux ys (i + 1) best m

/-- Index of the first maximum of a list, as `np.argmax` computes it; `none`
embeds the `ValueError` numpy raises on an empty array. -/
def argmax (l : List Int) : Option Nat :=
  match l with
  | [] => none
  | x :: xs => some (argmaxAux xs 1 0 x)

/-- Loop of `get_typo_indexes` from 245-typo-detector: walks the per-position
logit vectors, and when `np.argmax` flags label 1 looks the current token up
in the token-to-word dict, appending the word index if it is not already
present. `tokens[c]` out of range raises `IndexError`, a missing dict key
raises `KeyError`. -/
def gti_loop (m : List (List Char × Int)) (tokens : List (List Char)) :
    List (List Int) → Nat → List Int → Except PyError (List Int)
  | [], _, acc => .ok acc
  | i :: rest, c, acc =>
    match argmax i with
    | none => .error .valueError
    | some prob =>
      if prob = 1 then
        match tokens.get? c with
        | none => .error .indexError
        | some tk =>
          match dictLookup m tk with
          | none => .error .keyError
          | some w =>
            gti_loop m tokens rest (c + 1) (if w ∈ acc then acc else acc ++ [w])
      else gti_loop m tokens rest (c + 1) acc

/-- `get_typo_indexes` from 245-typo-detector: takes `result[0][1:-1]` (an
empty `result` makes `result[0]` raise `IndexError`) and runs the detection
loop. -/
def get_typo_indexes (result : List (List (List Int)))
    (map_to_words : List (List Char × Int)) (tokens : List (List Char)) :
    Except PyError (List Int) :=
  match result with
  | [] => .error .indexError
  | row :: _ => gti_loop map_to_words tokens ((row.drop 1).dropLast) 0 []

/-- Deduplication keeping the first occurrence of each element, in order:
`seen` holds the elements already emitted. Spec-side rendering of the claim's
"in the order of its first detection". -/
def dedupFirstAux (seen : List Int) : List Int → List Int
  | [] => []
  | x :: xs =>
    if x ∈ seen then dedupFirstAux seen xs else x :: dedupFirstAux (seen ++ [x]) xs

/-- Deduplication keeping the first occurrence of each element (see
`dedupFirstAux`). -/
def dedupFirst (l : List Int) : List Int :=
  dedupFirstAux [] l

/-- Spec-side raw detection sequence of `get_typo_indexes`: the word index of
every flagged position in scan order, repeated detections kept, with the same
failure behavior as the loop. The claim about the output order is stated
against this sequence. -/
def gti_raw (m : List (List Char × Int)) (tokens : List (List Char)) :
    List (List Int) → Nat → Except PyError (List Int)
  | [], _ => .ok []
  | i :: rest, c =>
    match argmax i with
    | none => .error .valueError
    | some prob =>
      if prob = 1 then
        match tokens.get? c with
        | none => .error .indexError
        | some tk =>
          match dictLookup m tk with
          | none => .error .keyError
          | some w =>
            match gti_raw m tokens rest (c + 1) with
            | .error e => .error e
            | .ok ws => .ok (w :: ws)
      else gti_raw m tokens rest (c + 1)

/-- Spec-side raw detection sequence over the sliced result rows (see
`gti_raw`). -/
def detected_word_sequence (result : List (List (List Int)))
    (m : List (List Char × Int)) (tokens : List (List Char)) :
    Except PyError (List Int) :=
  match result with
  | [] => .error .indexError
  | row :: _ => gti_raw m tokens ((row.drop 1).dropLast) 0

/-- Separator class of the regex `([',. ])` used by `sentence_split`:
apostrophe, comma, period and space. -/
def isSep (c : Char) : Bool :=
  c = Char.ofNat 39 || c = ',' || c = '.' || c = ' '

/-- Embedding of `re.split("([',. ])", s)`: alternating (possibly empty)
chunks of non-separator characters and single captured separator characters.
`acc` is the reversed current chunk. -/
def reSplitAux : List Char → List Char → List (List Char)
  | [], acc => [acc.reverse]
  | c :: cs, acc =>
    if isSep c then acc.reverse :: [c] :: reSplitAux cs []
    else reSplitAux cs (c :: acc)

/-- `sentence_split` from 245-typo-detector: regex-split the sentence keeping
the separators, then drop empty strings and single spaces. -/
def sentence_split (s : List Char) : List (List Char) :=
  (reSplitAux s []).filter (fun x => !(x == [' ']) && !(x == []))

/-- Python `s.replace(old, new)` for the corner case `old = ""`: `new` is
inserted before every character and at the end. -/
def pyReplaceEmpty (new : List Char) : List Char → List Char
  | [] => new
  | c :: cs => new ++ c :: pyReplaceEmpty new cs

/-- Python `s.replace(old, new)` for non-empty `old = o :: os`: scans left to
right, replacing each non-overlapping occurrence and never rescanning the
inserted replacement. `fuel` bounds the recursion depth; with `fuel` at least
the length of the string the bound is never hit, so the out-of-fuel branch is
unreachable from `pyReplace`. -/
def pyReplaceFuel (o : Char) (os new : List Char) : Nat → List Char → List Char
  | 0, s => s
  | _ + 1, [] => []
  | fuel + 1, c :: cs =>
    if (o :: os).isPrefixOf (c :: cs) then
      new ++ pyReplaceFuel o os new fuel (cs.drop os.length)
    else c :: pyReplaceFuel o os new fuel cs

/-- Python `s.replace(old, new)`: replaces every non-overlapping occurrence of
`old` in `s`, left to right. -/
def pyReplace (s old new : List Char) : List Char :=
  match old with
  | [] => pyReplaceEmpty new s
  | o :: os => pyReplaceFuel o os new s.length s

/-- Maximal segments of `s` between the non-overlapping left-to-right
occurrences of `o :: os`; joining them back with any separator recovers the
effect of replacing each occurrence with that separator. Fueled like
`pyReplaceFuel`. -/
def pySplitFuel (o : Char) (os : List Char) : Nat → List Char → List (List Char)
  | 0, s => [s]
  | _ + 1, [] => [[]]
  | fuel + 1, c :: cs =>
    if (o :: os).isPrefixOf (c :: cs) then [] :: pySplitFuel o os fuel (cs.drop os.length)
    else
      match pySplitFuel o os fuel cs with
      | [] => [[c]]
      | r :: rs => (c :: r) :: rs

/-- Segments of `s` between occurrences of `old`, covering the empty pattern
the way `pyReplaceEmpty` treats it (an empty segment around every character). -/
def pySplit (old s : List Char) : List (List Char) :=
  match old with
  | [] => [] :: (s.map (fun c => [c]) ++ [[]])
  | o :: os => pySplitFuel o os s.length s

/-- The tag `show_typos` wraps a detected word in: `<i>` ++ word ++ `</i>`. -/
def tagWord (w : List Char) : List Char :=
  "<i>".toList ++ w ++ "</i>".toList

/-- Annotation step of `show_typos` from 245-typo-detector, as a function of
the sentence and the detected word indices: slices the split sentence at the
detected indices (an out-of-range index raises `IndexError`, embedded as
`none`) and then, for each detected word in order, replaces it in the running
string with its tagged form via Python string replace. `sliceWords` embeds
the list comprehension indexing `sentence_words[i]`, raising on the first
out-of-range index. -/
def sliceWords (ws : List (List Char)) : List Nat → Option (List (List Char))
  | [] => some []
  | i :: is =>
    match ws.get? i with
    | none => none
    | some w =>
      match sliceWords ws is with
      | none => none
      | some rest => some (w :: rest)

/-- Annotation step of `show_typos` continued (see `sliceWords` above). -/
def annotate (sentence : List Char) (typo_indexes : List Nat) : Option (List Char) :=
  let sentence_words := sentence_split sentence
  match sliceWords sentence_words typo_indexes with
  | none => none
  | some typos =>
    some (typos.foldl (fun detected typo => pyReplace detected typo (tagWord typo)) sentence)

/-- What the claim about `show_typos` predicts: only the word occurrences at
the detected indices are wrapped; formally, the split sentence is rebuilt
segment by segment with the detected positions tagged, keeping the dropped
separators (spaces) between segments as they were in the original. This
definition follows the specification text, not the code, and is only used to
state how the code deviates from it. -/
def reSplitSegs (s : List Char) : List (List Char) :=
  reSplitAux s []

/-- Specification-side annotation of claim C3: walk the raw regex segments of
the sentence in order, keep every separator and every segment character
unchanged, and wrap a segment in the tag exactly when its index among the
kept words (non-empty, non-space segments) is a detected index. -/
def annotateSpecAux (detected : List Nat) : List (List Char) → Nat → List Char
  | [], _ => []
  | seg :: rest, k =>
    if seg = [] then annotateSpecAux detected rest k
    else if seg = [' '] then ' ' :: annotateSpecAux detected rest k
    else (if k ∈ detected then tagWord seg else seg) ++ annotateSpecAux detected rest (k + 1)

/-- Specification-side annotation of claim C3 (see `annotateSpecAux`). -/
def annotateSpec (sentence : List Char) (detected : List Nat) : List Char :=
  annotateSpecAux detected (reSplitSegs sentence) 0

/-- Global mutable state of the 227-whisper-nncf-quantize notebook: the
calibration flag and the two calibration-data lists. Tensors are embedded as
integer lists. -/
structure WhisperGlobals where
  COLLECT_CALIBRATION_DATA : Bool
  encoder_calibration_data : List (List Int)
  decoder_calibration_data : List (List Int)
deriving DecidableEq, Repr

/-- `encoder_forward` from 227-whisper-nncf-quantize: reads the global
calibration flag, appends `mel` to the global encoder calibration list when
the flag is set, and returns the compiled model applied to `mel`. -/
def encoder_forward (compiled_model : List Int → List Int) (g : WhisperGlobals)
    (mel : List Int) : WhisperGlobals × List Int :=
  let g' :=
    if g.COLLECT_CALIBRATION_DATA then
      { g with encoder_calibration_data := g.encoder_calibration_data ++ [mel] }
    else g
  (g', compiled_model mel)

/-- `calibration_data_collection` from 227-whisper-nncf-quantize: sets the
global flag to `True`, runs the body (which transforms the globals and may
raise, embedded as an optional exception), and in the `finally` clause sets
the flag back to `False` before the body's outcome propagates. -/
def calibration_data_collection
    (body : WhisperGlobals → WhisperGlobals × Option String) (g : WhisperGlobals) :
    WhisperGlobals × Option String :=
  let g1 := { g with COLLECT_CALIBRATION_DATA := true }
  let r := body g1
  ({ r.1 with COLLECT_CALIBRATION_DATA := false }, r.2)

/-- Arguments of `demo.launch` that the 244-named-entity-recognition cell
varies: the `share` flag (`debug=True` is passed both times). -/
structure LaunchArgs where
  share : Bool
deriving DecidableEq, Repr

/-- The launch cell of 244-named-entity-recognition: tries
`demo.launch(debug=True)`, and on any exception re-attempts with
`share=True`. `launch` is the library behavior, returning a result or an
exception. -/
def ner_launch_cell (launch : LaunchArgs → Except String Unit) : Except String Unit :=
  match launch ⟨false⟩ with
  | .ok u => .ok u
  | .error _ => launch ⟨true⟩

/-- A library behavior under which local launching fails but shared launching
succeeds (e.g. a port conflict), used to exercise the retry branch. -/
def launchFailsLocally : LaunchArgs → Except String Unit :=
  fun a => if a.share then .ok () else .error ("OSError")

end OVNB

-- sanity checks on concrete inputs, mirroring the notebook examples
example :
    OVNB.token_to_words ["he".toList, "ll".toList, "##o".toList] =
      [("he".toList, 0), ("ll".toList, 1), ("##o".toList, 1)] := by
  decide

example : OVNB.token_to_words ["##a".toList] = [("##a".toList, -1)] := by decide

example : OVNB.token_to_words ["a".toList, "a".toList] = [("a".toList, 1)] := by decide

example :
    OVNB.sentence_split ("Hello, word.".toList) =
      ["Hello".toList, ",".toList, "word".toList, ".".toList] := by
  decide

example :
    OVNB.get_typo_indexes [[[9], [0, 5], [5, 0], [0]]]
      (OVNB.token_to_words ["ab".toList, "cd".toList]) ["ab".toList, "cd".toList] =
      .ok [0] := rfl

namespace OVNB

theorem mem_dictInsert {m : List (List Char × Int)} {k : List Char} {v : Int}
    {p : List Char × Int} (hp : p ∈ dictInsert m k v) : p = (k, v) ∨ p ∈ m := by
  induction m with
  | nil => simpa [dictInsert] using hp
  | cons q rest ih =>
    obtain ⟨k', v'⟩ := q
    rw [dictInsert] at hp
    by_cases h : k' = k
    · simp only [if_pos h, List.mem_cons] at hp
      rcases hp with h1 | h1
      · exact Or.inl h1
      · exact Or.inr (List.mem_cons_of_mem _ h1)
    · simp only [if_neg h, List.mem_cons] at hp
      rcases hp with h1 | h1
      · exact Or.inr (by simp [h1])
      · rcases ih h1 with h2 | h2
        · exact Or.inl h2
        · exact Or.inr (List.mem_cons_of_mem _ h2)

theorem dictLookup_insert_self (m : List (List Char × Int)) (k : List Char) (v : Int) :
    dictLookup (dictInsert m k v) k = some v := by
  induction m with
  | nil => simp [dictInsert, dictLookup]
  | cons q rest ih =>
    obtain ⟨k', v'⟩ := q
    rw [dictInsert]
    by_cases h : k' = k
    · simp [h, dictLookup]
    · simp [h, dictLookup, ih]

theorem dictLookup_insert_ne (m : List (List Char × Int)) {k k' : List Char} (v : Int)
    (h : k' ≠ k) : dictLookup (dictInsert m k v) k' = dictLookup m k' := by
  induction m with
  | nil => simp [dictInsert, dictLookup, if_neg (Ne.symm h)]
  | cons q rest ih =>
    obtain ⟨q1, q2⟩ := q
    rw [dictInsert]
    by_cases hq : q1 = k
    · subst hq
      simp [dictLookup, Ne.symm h]
    · simp [dictLookup, hq, ih]

theorem dictLookup_some_mem {m : List (List Char × Int)} {k : List Char} {v : Int}
    (h : dictLookup m k = some v) : (k, v) ∈ m := by
  induction m with
  | nil => simp [dictLookup] at h
  | cons q rest ih =>
    obtain ⟨q1, q2⟩ := q
    rw [dictLookup] at h
    by_cases hq : q1 = k
    · simp only [if_pos hq] at h
      subst hq
      injection h with h
      subst h
      exact List.mem_cons_self _ _
    · simp only [if_neg hq] at h
      exact List.mem_cons_of_mem _ (ih h)

theorem countWords_cons (t : List Char) (ts : List (List Char)) :
    countWords (t :: ts) =
      (if hhTok.isPrefixOf t then 0 else 1) + countWords ts := by
  by_cases h : hhTok.isPrefixOf t
  · simp [countWords, List.filter_cons, h]
  · simp [countWords, List.filter_cons, h]
    omega

theorem ttw_aux_lookup_not_mem (ts : List (List Char)) (wc : Int)
    (m : List (List Char × Int)) (k : List Char) (hk : k ∉ ts) :
    dictLookup (token_to_words_aux ts wc m) k = dictLookup m k := by
  induction ts generalizing wc m with
  | nil => rfl
  | cons t rest ih =>
    have hne : k ≠ t := fun h => hk (h ▸ List.mem_cons_self _ _)
    have hrest : k ∉ rest := fun h => hk (List.mem_cons_of_mem _ h)
    rw [token_to_words_aux]
    by_cases h : hhTok.isPrefixOf t
    · rw [if_pos h, ih _ _ hrest, dictLookup_insert_ne _ _ hne]
    · rw [if_neg h, ih _ _ hrest, dictLookup_insert_ne _ _ hne]

theorem ttw_aux_lookup_last (ts : List (List Char)) (i : Nat) (h : i < ts.length)
    (wc : Int) (m : List (List Char × Int))
    (hlast : ts.get ⟨i, h⟩ ∉ ts.drop (i + 1)) :
    dictLookup (token_to_words_aux ts wc m) (ts.get ⟨i, h⟩) =
      some (wc + (countWords (ts.take (i + 1)) : Int)) := by
  induction ts generalizing i wc m with
  | nil => exact absurd h (Nat.not_lt_zero i)
  | cons t rest ih =>
    match i with
    | 0 =>
      simp only [List.get] at hlast ⊢
      simp only [List.drop_succ_cons, List.drop_zero] at hlast
      rw [token_to_words_aux]
      by_cases hhh : hhTok.isPrefixOf t
      · rw [if_pos hhh, ttw_aux_lookup_not_mem _ _ _ _ hlast, dictLookup_insert_self]
        simp [List.take_succ_cons, countWords_cons, hhh, countWords]
      · rw [if_neg hhh, ttw_aux_lookup_not_mem _ _ _ _ hlast, dictLookup_insert_self]
        simp [List.take_succ_cons, countWords_cons, hhh, countWords]
    | j + 1 =>
      have hj : j < rest.length := Nat.lt_of_succ_lt_succ h
      simp only [List.get] at hlast ⊢
      simp only [List.drop_succ_cons] at hlast
      rw [token_to_words_aux]
      by_cases hhh : hhTok.isPrefixOf t
      · rw [if_pos hhh, ih j hj _ _ hlast]
        rw [List.take_succ_cons, countWords_cons, if_pos hhh]
        norm_num
      · rw [if_neg hhh, ih j hj _ _ hlast]
        rw [List.take_succ_cons, countWords_cons, if_neg hhh]
        push_cast
        ring_nf

theorem ttw_aux_values_bound (ts : List (List Char)) (wc : Int)
    (m : List (List Char × Int)) (lo hi : Int)
    (hm : ∀ p ∈ m, lo ≤ p.2 ∧ p.2 < hi) (hlo : lo ≤ wc)
    (hhi : wc + (countWords ts : Int) < hi) :
    ∀ p ∈ token_to_words_aux ts wc m, lo ≤ p.2 ∧ p.2 < hi := by
  induction ts generalizing wc m with
  | nil => exact fun p hp => hm p hp
  | cons t rest ih =>
    rw [token_to_words_aux]
    have hcw : (0 : Int) ≤ (countWords rest : Int) := Int.natCast_nonneg _
    by_cases hhh : hhTok.isPrefixOf t
    · rw [if_pos hhh]
      rw [countWords_cons, if_pos hhh] at hhi
      refine ih wc (dictInsert m t wc) ?_ hlo (by push_cast at hhi ⊢; omega)
      intro p hp
      rcases mem_dictInsert hp with h1 | h1
      · subst h1
        constructor
        · exact hlo
        · push_cast at hhi
          omega
      · exact hm p h1
    · rw [if_neg hhh]
      rw [countWords_cons, if_neg hhh] at hhi
      refine ih (wc + 1) (dictInsert m t (wc + 1)) ?_ (by omega) (by push_cast at hhi ⊢; omega)
      intro p hp
      rcases mem_dictInsert hp with h1 | h1
      · subst h1
        constructor
        · simp only
          omega
        · simp only
          push_cast at hhi
          omega
      · exact hm p h1

end OVNB

namespace OVNB

theorem ttw_aux_consecutive (ts : List (List Char)) (wc : Int)
    (m : List (List Char × Int)) (hnd : ts.Nodup) :
    (ts.filter (fun t => !(hhTok.isPrefixOf t))).map
        (dictLookup (token_to_words_aux ts wc m)) =
      (List.range (countWords ts)).map (fun n : Nat => some (wc + 1 + (n : Int))) := by
  induction ts generalizing wc m with
  | nil => simp [countWords]
  | cons t rest ih =>
    have hmem : t ∉ rest := (List.nodup_cons.mp hnd).1
    have hrest : rest.Nodup := (List.nodup_cons.mp hnd).2
    rw [token_to_words_aux]
    by_cases hhh : hhTok.isPrefixOf t
    · rw [if_pos hhh, List.filter_cons_of_neg (by simp [hhh]), countWords_cons, if_pos hhh]
      simpa using ih wc (dictInsert m t wc) hrest
    · rw [if_neg hhh, List.filter_cons_of_pos (by simp [hhh]), countWords_cons, if_neg hhh]
      rw [List.map_cons, ttw_aux_lookup_not_mem _ _ _ _ hmem, dictLookup_insert_self,
        ih (wc + 1) (dictInsert m t (wc + 1)) hrest]
      have h1 : 1 + countWords rest = countWords rest + 1 := by omega
      rw [h1, List.range_succ_eq_map, List.map_cons, List.map_map]
      congr 1
      · simp
      · refine List.map_congr_left ?_
        intro a _
        simp only [Function.comp_apply, Option.some.injEq, Nat.succ_eq_add_one]
        push_cast
        omega

end OVNB

namespace OVNB

theorem gti_loop_ok_values (m : List (List Char × Int)) (tokens : List (List Char)) :
    ∀ (l : List (List Int)) (c : Nat) (acc ws : List Int),
      gti_loop m tokens l c acc = .ok ws →
      ∀ v ∈ ws, v ∈ acc ∨ ∃ k, (k, v) ∈ m := by
  intro l
  induction l with
  | nil =>
    intro c acc ws h v hv
    simp only [gti_loop, Except.ok.injEq] at h
    subst h
    exact Or.inl hv
  | cons i rest ih =>
    intro c acc ws h v hv
    rw [gti_loop] at h
    simp only [List.get?_eq_getElem?] at h
    cases hax : argmax i with
    | none => simp [hax] at h
    | some prob =>
      simp only [hax] at h
      by_cases hp : prob = 1
      · rw [if_pos hp] at h
        cases hg : tokens[c]? with
        | none => simp [hg] at h
        | some tk =>
          simp only [hg] at h
          cases hl : dictLookup m tk with
          | none => simp [hl] at h
          | some w =>
            simp only [hl] at h
            rcases ih _ _ _ h v hv with hin | hm
            · by_cases hw : w ∈ acc
              · rw [if_pos hw] at hin
                exact Or.inl hin
              · rw [if_neg hw] at hin
                rcases List.mem_append.mp hin with h1 | h1
                · exact Or.inl h1
                · refine Or.inr ⟨tk, ?_⟩
                  have hvw : v = w := by simpa using h1
                  subst hvw
                  exact dictLookup_some_mem hl
            · exact Or.inr hm
      · rw [if_neg hp] at h
        exact ih _ _ _ h v hv

theorem gti_loop_nodup (m : List (List Char × Int)) (tokens : List (List Char)) :
    ∀ (l : List (List Int)) (c : Nat) (acc : List Int), acc.Nodup →
      ∀ ws, gti_loop m tokens l c acc = .ok ws → ws.Nodup := by
  intro l
  induction l with
  | nil =>
    intro c acc hacc ws h
    simp only [gti_loop, Except.ok.injEq] at h
    subst h
    exact hacc
  | cons i rest ih =>
    intro c acc hacc ws h
    rw [gti_loop] at h
    simp only [List.get?_eq_getElem?] at h
    cases hax : argmax i with
    | none => simp [hax] at h
    | some prob =>
      simp only [hax] at h
      by_cases hp : prob = 1
      · rw [if_pos hp] at h
        cases hg : tokens[c]? with
        | none => simp [hg] at h
        | some tk =>
          simp only [hg] at h
          cases hl : dictLookup m tk with
          | none => simp [hl] at h
          | some w =>
            simp only [hl] at h
            by_cases hw : w ∈ acc
            · rw [if_pos hw] at h
              exact ih _ _ hacc _ h
            · rw [if_neg hw] at h
              refine ih _ _ ?_ _ h
              simp [List.nodup_append, hacc, hw]
      · rw [if_neg hp] at h
        exact ih _ _ hacc _ h

theorem gti_loop_error_kind (m : List (List Char × Int)) (tokens : List (List Char))
    (hkeys : ∀ t ∈ tokens, (dictLookup m t).isSome) :
    ∀ (l : List (List Int)) (c : Nat) (acc : List Int), c + l.length ≤ tokens.length →
      ∀ e, gti_loop m tokens l c acc = .error e → e = .valueError := by
  intro l
  induction l with
  | nil =>
    intro c acc _ e h
    simp [gti_loop] at h
  | cons i rest ih =>
    intro c acc hlen e h
    rw [gti_loop] at h
    simp only [List.get?_eq_getElem?] at h
    cases hax : argmax i with
    | none =>
      simp only [hax, Except.error.injEq] at h
      exact h.symm
    | some prob =>
      simp only [hax] at h
      have hc : c < tokens.length := by
        simp only [List.length_cons] at hlen
        omega
      by_cases hp : prob = 1
      · rw [if_pos hp] at h
        cases hg : tokens[c]? with
        | none =>
          rw [List.getElem?_eq_getElem hc] at hg
          simp at hg
        | some tk =>
          simp only [hg] at h
          have htk : tk ∈ tokens := List.getElem?_mem hg
          cases hl : dictLookup m tk with
          | none =>
            have hs := hkeys tk htk
            simp [hl] at hs
          | some w =>
            simp only [hl] at h
            refine ih (c + 1) _ ?_ e h
            simp only [List.length_cons] at hlen
            omega
      · rw [if_neg hp] at h
        refine ih (c + 1) _ ?_ e h
        simp only [List.length_cons] at hlen
        omega

theorem gti_loop_not_valueError (m : List (List Char × Int)) (tokens : List (List Char)) :
    ∀ (l : List (List Int)) (c : Nat) (acc : List Int), (∀ v ∈ l, v ≠ []) →
      gti_loop m tokens l c acc ≠ .error .valueError := by
  intro l
  induction l with
  | nil =>
    intro c acc _ h
    simp [gti_loop] at h
  | cons i rest ih =>
    intro c acc hne h
    have hi : i ≠ [] := hne i (List.mem_cons_self _ _)
    have hne' : ∀ v ∈ rest, v ≠ [] := fun v hv => hne v (List.mem_cons_of_mem _ hv)
    match i, hi with
    | x :: xs, _ =>
      rw [gti_loop] at h
      simp only [List.get?_eq_getElem?, argmax] at h
      by_cases hp : argmaxAux xs 1 0 x = 1
      · rw [if_pos hp] at h
        cases hg : tokens[c]? with
        | none => simp [hg] at h
        | some tk =>
          simp only [hg] at h
          cases hl : dictLookup m tk with
          | none => simp [hl] at h
          | some w =>
            simp only [hl] at h
            exact ih _ _ hne' h
      · rw [if_neg hp] at h
        exact ih _ _ hne' h

theorem gti_loop_ok_of (m : List (List Char × Int)) (tokens : List (List Char))
    (hkeys : ∀ t ∈ tokens, (dictLookup m t).isSome) (l : List (List Int)) (c : Nat)
    (acc : List Int) (hlen : c + l.length ≤ tokens.length) (hne : ∀ v ∈ l, v ≠ []) :
    ∃ ws, gti_loop m tokens l c acc = .ok ws := by
  cases hres : gti_loop m tokens l c acc with
  | ok ws => exact ⟨ws, rfl⟩
  | error e =>
    have he := gti_loop_error_kind m tokens hkeys l c acc hlen e hres
    subst he
    exact absurd hres (gti_loop_not_valueError m tokens l c acc hne)

end OVNB

namespace OVNB

/-- C1 counterexample: the dictionary built by token_to_words is keyed by the
token string, so of the two occurrences of token "a" (originating from word 0
and word 1), the claim's predicted entry for the first occurrence (word index
0, i.e. wordIndexAt at position 0) is not what the dictionary holds: the
second occurrence overwrote it with word index 1. -/
theorem token_to_words_cex_duplicate_occurrence :
    dictLookup (token_to_words ["a".toList, "a".toList]) ("a".toList) ≠
      some (wordIndexAt ["a".toList, "a".toList] 0) ∧
    dictLookup (token_to_words ["a".toList, "a".toList]) ("a".toList) = some 1 := by
  decide

/-- C1 (amended): for every list of tokens, the dictionary returned by
token_to_words maps each token string to the word index of its LAST
occurrence in the list: at any position i whose token does not reappear
later, the stored value is the number of non-'##' tokens at or before i
minus one (for a '##' token this is the word index of the nearest preceding
non-'##' token, or -1 when there is none). Occurrences of equal token
strings share a single entry, so distinct occurrences of the same string do
not receive their own word index. -/
theorem token_to_words_maps_last_occurrence (tokens : List (List Char)) (i : Nat)
    (h : i < tokens.length) (hlast : tokens.get ⟨i, h⟩ ∉ tokens.drop (i + 1)) :
    dictLookup (token_to_words tokens) (tokens.get ⟨i, h⟩) =
      some (wordIndexAt tokens i) := by
  rw [token_to_words, ttw_aux_lookup_last tokens i h (-1) [] hlast, wordIndexAt]
  simp only [Option.some.injEq]
  omega

/-- Witness for the C1 theorem at the token list ["ab", "##c"], position 1. -/
theorem token_to_words_maps_last_occurrence_witness :
    (["ab".toList, "##c".toList].get ⟨1, by decide⟩ ∉ ["ab".toList, "##c".toList].drop 2) ∧
    dictLookup (token_to_words ["ab".toList, "##c".toList])
        (["ab".toList, "##c".toList].get ⟨1, by decide⟩) =
      some (wordIndexAt ["ab".toList, "##c".toList] 1) :=
  ⟨by decide, token_to_words_maps_last_occurrence _ 1 (by decide) (by decide)⟩

/-- C8 counterexample: with tokens ["a", "b", "a"], the non-'##' tokens in
list order do not receive the consecutive word indices 0, 1, 2: both
occurrences of "a" share one dictionary entry holding 2, so the lookup
sequence is [2, 1, 2], not [0, 1, 2]. -/
theorem token_to_words_cex_not_consecutive :
    (["a".toList, "b".toList, "a".toList].filter (fun t => !(hhTok.isPrefixOf t))).map
        (dictLookup (token_to_words ["a".toList, "b".toList, "a".toList])) ≠
      (List.range (countWords ["a".toList, "b".toList, "a".toList])).map
        (fun n : Nat => some ((n : Int))) := by
  decide

/-- C8 (amended): for every list of pairwise distinct tokens, the non-'##'
tokens, taken in list order, are mapped by token_to_words to the consecutive
word indices 0, 1, 2, ...; with duplicate token strings the entry of an
earlier occurrence is overwritten by the later one. -/
theorem token_to_words_consecutive (tokens : List (List Char)) (hnd : tokens.Nodup) :
    (tokens.filter (fun t => !(hhTok.isPrefixOf t))).map
        (dictLookup (token_to_words tokens)) =
      (List.range (countWords tokens)).map (fun n : Nat => some ((n : Int))) := by
  rw [token_to_words, ttw_aux_consecutive tokens (-1) [] hnd]
  refine List.map_congr_left ?_
  intro a _
  norm_num

/-- Witness for the C8 theorem at the token list ["he", "##o", "wd"]. -/
theorem token_to_words_consecutive_witness :
    (["he".toList, "##o".toList, "wd".toList].Nodup) ∧
    (["he".toList, "##o".toList, "wd".toList].filter (fun t => !(hhTok.isPrefixOf t))).map
        (dictLookup (token_to_words ["he".toList, "##o".toList, "wd".toList])) =
      (List.range (countWords ["he".toList, "##o".toList, "wd".toList])).map
        (fun n : Nat => some ((n : Int))) :=
  ⟨by decide, token_to_words_consecutive _ (by decide)⟩

/-- C2 counterexample: when the first token starts with '##', word_count is
still -1 when it is stored, so the dictionary value for "##a" is -1, which is
not a valid index into the word list (and the claim asserted the property in
particular for this case). -/
theorem token_to_words_cex_negative_value :
    ¬ (∀ p ∈ token_to_words ["##a".toList],
        0 ≤ p.2 ∧ p.2 < (countWords ["##a".toList] : Int)) := by
  decide

/-- C2 (amended): for every non-empty token list whose FIRST token does not
start with '##', every value stored by token_to_words, and every index in a
list successfully returned by get_typo_indexes over that dictionary, is a
valid word index: an integer v with 0 <= v < (number of non-'##' tokens).
When the first token does start with '##' the property fails (the stored
value is -1). -/
theorem token_to_words_values_bounded (t : List Char) (rest : List (List Char))
    (hfirst : hhTok.isPrefixOf t = false) :
    (∀ p ∈ token_to_words (t :: rest),
        0 ≤ p.2 ∧ p.2 < (countWords (t :: rest) : Int)) ∧
    (∀ result ws, get_typo_indexes result (token_to_words (t :: rest)) (t :: rest) = .ok ws →
        ∀ v ∈ ws, 0 ≤ v ∧ v < (countWords (t :: rest) : Int)) := by
  have hbound : ∀ p ∈ token_to_words (t :: rest),
      0 ≤ p.2 ∧ p.2 < (countWords (t :: rest) : Int) := by
    rw [token_to_words, token_to_words_aux, hfirst]
    simp only [Bool.false_eq_true, if_false]
    have hm : ∀ p ∈ dictInsert [] t (-1 + 1),
        0 ≤ p.2 ∧ p.2 < (countWords (t :: rest) : Int) := by
      intro p hp
      rcases mem_dictInsert hp with h1 | h1
      · subst h1
        refine ⟨by norm_num, ?_⟩
        rw [countWords_cons, hfirst]
        simp only [Bool.false_eq_true, if_false]
        push_cast
        have := Int.natCast_nonneg (countWords rest)
        omega
      · simp at h1
    refine ttw_aux_values_bound rest (-1 + 1) _ 0 _ hm (by norm_num) ?_
    rw [countWords_cons, hfirst]
    simp only [Bool.false_eq_true, if_false]
    push_cast
    omega
  refine ⟨hbound, ?_⟩
  intro result ws hok v hv
  match result with
  | [] => simp [get_typo_indexes] at hok
  | row :: rest2 =>
    rw [get_typo_indexes] at hok
    rcases gti_loop_ok_values _ _ _ _ _ _ hok v hv with h1 | ⟨k, hk⟩
    · simp at h1
    · exact hbound (k, v) hk

/-- Witness for the C2 theorem: tokens ["ab", "cd"], an inference result
flagging position 1, giving the valid word index 0. -/
theorem token_to_words_values_bounded_witness :
    (hhTok.isPrefixOf ("ab".toList) = false) ∧
    ((0 : Int) ≤ 0 ∧ (0 : Int) < (countWords ["ab".toList, "cd".toList] : Int)) :=
  ⟨by decide,
    (token_to_words_values_bounded ("ab".toList) ["cd".toList] (by decide)).2
      [[[9], [0, 5], [5, 0], [0]]] [0] rfl 0 (by decide)⟩

/-- C6: for a well-formed input --- a result whose first row has length
(number of tokens) + 2 and a dictionary with an entry for every token ---
get_typo_indexes never raises IndexError (every tokens[c] access is in
range) and never raises KeyError (every dictionary lookup finds its key):
the only conceivable failure left is numpy's ValueError on an empty logit
vector, and when every sliced logit vector is non-empty the call returns a
result. -/
theorem get_typo_indexes_safe (row : List (List Int)) (rest : List (List (List Int)))
    (tokens : List (List Char)) (m : List (List Char × Int))
    (hlen : row.length = tokens.length + 2)
    (hkeys : ∀ t ∈ tokens, (dictLookup m t).isSome) :
    (∀ e, get_typo_indexes (row :: rest) m tokens = .error e → e = PyError.valueError) ∧
    ((∀ v ∈ (row.drop 1).dropLast, v ≠ []) →
      ∃ ws, get_typo_indexes (row :: rest) m tokens = .ok ws) := by
  have hrl : ((row.drop 1).dropLast).length ≤ tokens.length := by
    simp only [List.length_dropLast, List.length_drop, hlen]
    omega
  constructor
  · intro e h
    rw [get_typo_indexes] at h
    exact gti_loop_error_kind m tokens hkeys _ 0 [] (by omega) e h
  · intro hne
    rw [get_typo_indexes]
    exact gti_loop_ok_of m tokens hkeys _ 0 [] (by omega) hne

/-- Witness for the C6 theorem: a 4-row result over 2 tokens with every
dictionary key present returns successfully. -/
theorem get_typo_indexes_safe_witness :
    ([[9], [0, 5], [5, 0], [0]] : List (List Int)).length =
      (["ab".toList, "cd".toList] : List (List Char)).length + 2 ∧
    ∃ ws, get_typo_indexes [[[9], [0, 5], [5, 0], [0]]]
        (token_to_words ["ab".toList, "cd".toList]) ["ab".toList, "cd".toList] = .ok ws :=
  ⟨by decide,
    (get_typo_indexes_safe [[9], [0, 5], [5, 0], [0]] [] ["ab".toList, "cd".toList]
        (token_to_words ["ab".toList, "cd".toList]) (by decide) (by decide)).2
      (by decide)⟩

end OVNB

namespace OVNB

theorem reverse_ne_single_space {acc : List Char} (hacc : ' ' ∉ acc) :
    acc.reverse ≠ [' '] := by
  intro hh
  apply hacc
  have : acc = [' '] := by
    have := congrArg List.reverse hh
    simpa using this
  simp [this]

theorem reSplitAux_filter_join (s : List Char) :
    ∀ acc : List Char, ' ' ∉ acc →
      ((reSplitAux s acc).filter (fun x => !(x == [' ']) && !(x == []))).flatten =
        acc.reverse ++ s.filter (fun c => c != ' ') := by
  induction s with
  | nil =>
    intro acc hacc
    rw [reSplitAux]
    by_cases hr : acc.reverse = []
    · simp [List.filter_cons, hr]
    · have hsp : acc.reverse ≠ [' '] := reverse_ne_single_space hacc
      simp [List.filter_cons, hr, hsp]
  | cons c cs ih =>
    intro acc hacc
    rw [reSplitAux]
    by_cases hsep : isSep c
    · rw [if_pos hsep]
      have hrest := ih [] (by simp)
      simp only [List.reverse_nil, List.nil_append] at hrest
      simp at hrest
      by_cases hc : c = ' '
      · subst hc
        by_cases hr : acc.reverse = []
        · simp [List.filter_cons, hr, hrest]
        · have hsp : acc.reverse ≠ [' '] := reverse_ne_single_space hacc
          simp [List.filter_cons, hr, hsp, hrest]
      · by_cases hr : acc.reverse = []
        · simp [List.filter_cons, hr, hc, hrest]
        · have hsp : acc.reverse ≠ [' '] := reverse_ne_single_space hacc
          simp [List.filter_cons, hr, hsp, hc, hrest]
    · rw [if_neg hsep]
      have hc : c ≠ ' ' := by
        intro hh
        exact hsep (by simp [hh, isSep])
      have hacc' : ' ' ∉ c :: acc := by
        intro hh
        rcases List.mem_cons.mp hh with h1 | h1
        · exact hc h1.symm
        · exact hacc h1
      rw [ih (c :: acc) hacc']
      simp [List.filter_cons, hc]

/-- C7: for every input string, sentence_split returns no empty string and no
single-space string, and the concatenation of the returned pieces in order is
the original sentence with every space character removed: the regex split
with a captured separator class loses no character, and the filter drops
exactly the empty chunks and the captured spaces. -/
theorem sentence_split_clean_join (s : List Char) :
    (∀ x ∈ sentence_split s, x ≠ [] ∧ x ≠ [' ']) ∧
    (sentence_split s).flatten = s.filter (fun c => c != ' ') := by
  constructor
  · intro x hx
    rw [sentence_split, List.mem_filter] at hx
    have h2 := hx.2
    simp only [Bool.and_eq_true, Bool.not_eq_true', beq_eq_false_iff_ne] at h2
    exact ⟨h2.2, h2.1⟩
  · have h := reSplitAux_filter_join s [] (by simp)
    simpa [sentence_split] using h

end OVNB

namespace OVNB

theorem intercalate_single (sep x : List Char) : List.intercalate sep [x] = x := by
  simp [List.intercalate, List.intersperse]

theorem intercalate_cons2 (sep x y : List Char) (zs : List (List Char)) :
    List.intercalate sep (x :: y :: zs) = x ++ sep ++ List.intercalate sep (y :: zs) := by
  simp [List.intercalate, List.intersperse_cons_cons, List.append_assoc]

theorem pySplitFuel_ne_nil (o : Char) (os : List Char) :
    ∀ (fuel : Nat) (s : List Char), pySplitFuel o os fuel s ≠ [] := by
  intro fuel
  match fuel with
  | 0 =>
    intro s
    simp [pySplitFuel]
  | f + 1 =>
    intro s
    match s with
    | [] => simp [pySplitFuel]
    | c :: cs =>
      rw [pySplitFuel]
      by_cases hp : (o :: os).isPrefixOf (c :: cs)
      · simp [hp]
      · simp only [hp, Bool.false_eq_true, if_false]
        cases hps : pySplitFuel o os f cs <;> simp

theorem pyReplaceFuel_eq_intercalate (o : Char) (os new : List Char) :
    ∀ (fuel : Nat) (s : List Char), s.length ≤ fuel →
      pyReplaceFuel o os new fuel s =
        List.intercalate new (pySplitFuel o os fuel s) := by
  intro fuel
  induction fuel with
  | zero =>
    intro s hs
    have : s = [] := List.length_eq_zero.mp (Nat.le_zero.mp hs)
    subst this
    simp [pyReplaceFuel, pySplitFuel, intercalate_single]
  | succ f ih =>
    intro s hs
    match s with
    | [] => simp [pyReplaceFuel, pySplitFuel, intercalate_single]
    | c :: cs =>
      rw [pyReplaceFuel, pySplitFuel]
      have hcs : cs.length ≤ f := by
        simp only [List.length_cons] at hs
        omega
      by_cases hp : (o :: os).isPrefixOf (c :: cs)
      · simp only [hp, if_true]
        have hdrop : (cs.drop os.length).length ≤ f := by
          simp only [List.length_drop]
          omega
        cases hps : pySplitFuel o os f (cs.drop os.length) with
        | nil => exact absurd hps (pySplitFuel_ne_nil o os f _)
        | cons r rs =>
          rw [intercalate_cons2]
          rw [ih _ hdrop, hps]
          simp
      · simp only [hp, Bool.false_eq_true, if_false]
        cases hps : pySplitFuel o os f cs with
        | nil => exact absurd hps (pySplitFuel_ne_nil o os f cs)
        | cons r rs =>
          rw [ih cs hcs, hps]
          cases rs with
          | nil => rw [intercalate_single, intercalate_single]
          | cons r2 rs2 =>
            rw [intercalate_cons2, intercalate_cons2]
            simp

theorem pyReplaceEmpty_eq_intercalate (new : List Char) :
    ∀ s : List Char,
      pyReplaceEmpty new s =
        List.intercalate new ([] :: (s.map (fun c => [c]) ++ [[]])) := by
  intro s
  induction s with
  | nil =>
    rw [pyReplaceEmpty]
    simp [List.intercalate, List.intersperse]
  | cons c cs ih =>
    rw [pyReplaceEmpty, ih]
    cases hq : cs.map (fun c => [c]) ++ [[]] with
    | nil => simp at hq
    | cons q qs =>
      rw [List.map_cons, List.cons_append, hq]
      rw [intercalate_cons2, intercalate_cons2, intercalate_cons2]
      simp

theorem pyReplace_eq_intercalate (s old new : List Char) :
    pyReplace s old new = List.intercalate new (pySplit old s) := by
  match old with
  | [] =>
    rw [pyReplace, pySplit]
    exact pyReplaceEmpty_eq_intercalate new s
  | o :: os =>
    rw [pyReplace, pySplit]
    exact pyReplaceFuel_eq_intercalate o os new s.length s (Nat.le_refl _)

/-- C3 counterexample: for the sentence "aa aa" with the single detected
index 0, the claim predicts that only the first word occurrence is wrapped
(annotateSpec, built from the specification text, yields that string), but
show_typos uses Python str.replace, which wraps every occurrence of the
word string "aa", including the occurrence at the undetected index 1. -/
theorem annotate_cex_marks_all_occurrences :
    annotate ("aa aa".toList) [0] ≠ some (annotateSpec ("aa aa".toList) [0]) ∧
    annotate ("aa aa".toList) [0] = some ("<i>aa</i> <i>aa</i>".toList) ∧
    annotateSpec ("aa aa".toList) [0] = "<i>aa</i> aa".toList := by
  decide

/-- C3 (amended): the annotated string built by show_typos wraps, for each
detected index taken in order, EVERY non-overlapping left-to-right occurrence
of that word's string in the running string --- not only the occurrence at the
detected index --- and leaves the characters between those occurrences
unchanged: the result is exactly the segments of the current string between
occurrences of the word, rejoined with the tagged word. -/
theorem annotate_replaces_every_occurrence (s : List Char) (idxs : List Nat)
    (typos : List (List Char)) (h : sliceWords (sentence_split s) idxs = some typos) :
    annotate s idxs =
      some (typos.foldl (fun det w => List.intercalate (tagWord w) (pySplit w det)) s) := by
  rw [annotate]
  simp only [h]
  congr 1
  apply List.foldl_ext
  intro a b _
  exact pyReplace_eq_intercalate a b (tagWord b)

/-- Witness for the C3 theorem at the sentence "ab cd" with detected index 0. -/
theorem annotate_replaces_every_occurrence_witness :
    sliceWords (sentence_split ("ab cd".toList)) [0] = some ["ab".toList] ∧
    annotate ("ab cd".toList) [0] =
      some (List.foldl (fun det w => List.intercalate (tagWord w) (pySplit w det))
        ("ab cd".toList) ["ab".toList]) :=
  ⟨rfl, annotate_replaces_every_occurrence _ _ _ rfl⟩

end OVNB

namespace OVNB

/-- C4 counterexample: under a library behavior where demo.launch(debug=True)
raises and demo.launch(share=True, debug=True) succeeds, the
named-entity-recognition launch cell catches the exception and completes
successfully: the failure of the first call does not propagate to the caller,
contradicting the claim that no statement catches an exception. -/
theorem ner_launch_cell_cex_catches :
    ner_launch_cell launchFailsLocally = .ok () ∧
    launchFailsLocally ⟨false⟩ = .error ("OSError") :=
  ⟨rfl, rfl⟩

/-- C4 (amended): the notebooks contain exactly one piece of error handling:
the NER demo launch cell catches any exception raised by
demo.launch(debug=True) and re-attempts the launch with share=True, whose
outcome (success or failure) then propagates; every other library failure in
the notebooks propagates uncaught. -/
theorem ner_launch_cell_retries (launch : LaunchArgs → Except String Unit) :
    (∀ u, launch ⟨false⟩ = .ok u → ner_launch_cell launch = .ok u) ∧
    (∀ e, launch ⟨false⟩ = .error e → ner_launch_cell launch = launch ⟨true⟩) := by
  constructor
  · intro u h
    rw [ner_launch_cell, h]
  · intro e h
    rw [ner_launch_cell, h]

/-- Witness for the C4 theorem: the retry branch fires for a behavior whose
local launch raises. -/
theorem ner_launch_cell_retries_witness :
    launchFailsLocally ⟨false⟩ = .error ("OSError") ∧
    ner_launch_cell launchFailsLocally = launchFailsLocally ⟨true⟩ :=
  ⟨rfl, (ner_launch_cell_retries launchFailsLocally).2 ("OSError") rfl⟩

/-- C5 counterexample: encoder_forward writes shared mutable state outside
its arguments and return value: with the global calibration flag set, calling
it appends its input to the global encoder_calibration_data list, so the
globals after the call differ from the globals before. -/
theorem encoder_forward_cex_mutates :
    (encoder_forward id
        { COLLECT_CALIBRATION_DATA := true, encoder_calibration_data := [],
          decoder_calibration_data := [] } [7]).1 ≠
      { COLLECT_CALIBRATION_DATA := true, encoder_calibration_data := [],
        decoder_calibration_data := [] } := by
  decide

/-- C5 (amended): the whisper-quantization helpers do touch shared mutable
state, but only in a confined way: encoder_forward reads the global
COLLECT_CALIBRATION_DATA flag and, exactly when it is set, appends its input
to the global encoder calibration list; it never changes the flag or the
decoder list, its return value is just the compiled model applied to the
input, and when the flag is clear the globals are left entirely unchanged. -/
theorem encoder_forward_frame (compiled_model : List Int → List Int)
    (g : WhisperGlobals) (mel : List Int) :
    ((encoder_forward compiled_model g mel).1.COLLECT_CALIBRATION_DATA =
      g.COLLECT_CALIBRATION_DATA) ∧
    ((encoder_forward compiled_model g mel).1.decoder_calibration_data =
      g.decoder_calibration_data) ∧
    ((encoder_forward compiled_model g mel).1.encoder_calibration_data =
      g.encoder_calibration_data ++
        (if g.COLLECT_CALIBRATION_DATA then [mel] else [])) ∧
    ((encoder_forward compiled_model g mel).2 = compiled_model mel) ∧
    (g.COLLECT_CALIBRATION_DATA = false → (encoder_forward compiled_model g mel).1 = g) := by
  by_cases h : g.COLLECT_CALIBRATION_DATA <;> simp [encoder_forward, h]

/-- Witness for the C5 theorem: with the flag clear, a call leaves the
globals unchanged. -/
theorem encoder_forward_frame_witness :
    ({ COLLECT_CALIBRATION_DATA := false, encoder_calibration_data := [],
        decoder_calibration_data := [] } : WhisperGlobals).COLLECT_CALIBRATION_DATA = false ∧
    (encoder_forward id
        { COLLECT_CALIBRATION_DATA := false, encoder_calibration_data := [],
          decoder_calibration_data := [] } [3]).1 =
      { COLLECT_CALIBRATION_DATA := false, encoder_calibration_data := [],
        decoder_calibration_data := [] } :=
  ⟨rfl, (encoder_forward_frame id _ [3]).2.2.2.2 rfl⟩

/-- C10: calibration_data_collection runs its body on globals whose
COLLECT_CALIBRATION_DATA flag is True, and on every exit path --- the body
returning normally or raising (an exception outcome in the second component,
which propagates unchanged) --- the finally clause leaves the flag False,
while the calibration data accumulated by the body is preserved. -/
theorem calibration_data_collection_finally
    (body : WhisperGlobals → WhisperGlobals × Option String) (g : WhisperGlobals) :
    ((calibration_data_collection body g).1.COLLECT_CALIBRATION_DATA = false) ∧
    ((calibration_data_collection body g).2 =
      (body { g with COLLECT_CALIBRATION_DATA := true }).2) ∧
    ((calibration_data_collection body g).1.encoder_calibration_data =
      (body { g with COLLECT_CALIBRATION_DATA := true }).1.encoder_calibration_data) ∧
    ((calibration_data_collection body g).1.decoder_calibration_data =
      (body { g with COLLECT_CALIBRATION_DATA := true }).1.decoder_calibration_data) := by
  simp [calibration_data_collection]

end OVNB

namespace OVNB

theorem dedupFirstAux_spec (l : List Int) :
    ∀ seen : List Int,
      (∀ x ∈ dedupFirstAux seen l, x ∉ seen) ∧ (dedupFirstAux seen l).Nodup := by
  induction l with
  | nil =>
    intro seen
    exact ⟨by simp [dedupFirstAux], by simp [dedupFirstAux]⟩
  | cons x xs ih =>
    intro seen
    rw [dedupFirstAux]
    by_cases hx : x ∈ seen
    · rw [if_pos hx]
      exact ih seen
    · rw [if_neg hx]
      have hnotin : ∀ y ∈ dedupFirstAux (seen ++ [x]) xs, y ∉ seen ++ [x] :=
        (ih (seen ++ [x])).1
      constructor
      · intro y hy
        rcases List.mem_cons.mp hy with h1 | h1
        · subst h1
          exact hx
        · intro hys
          exact hnotin y h1 (List.mem_append_left _ hys)
      · rw [List.nodup_cons]
        refine ⟨?_, (ih (seen ++ [x])).2⟩
        intro hxin
        exact hnotin x hxin (List.mem_append_right _ (List.mem_singleton.mpr rfl))

theorem gti_loop_eq_dedup (m : List (List Char × Int)) (tokens : List (List Char)) :
    ∀ (l : List (List Int)) (c : Nat) (acc ws : List Int),
      gti_loop m tokens l c acc = .ok ws →
      ∃ raw, gti_raw m tokens l c = .ok raw ∧ ws = acc ++ dedupFirstAux acc raw := by
  intro l
  induction l with
  | nil =>
    intro c acc ws h
    simp only [gti_loop, Except.ok.injEq] at h
    subst h
    exact ⟨[], rfl, by simp [dedupFirstAux]⟩
  | cons i rest ih =>
    intro c acc ws h
    rw [gti_loop] at h
    rw [gti_raw]
    simp only [List.get?_eq_getElem?] at h ⊢
    cases hax : argmax i with
    | none => simp [hax] at h
    | some prob =>
      simp only [hax] at h ⊢
      by_cases hp : prob = 1
      · rw [if_pos hp] at h ⊢
        cases hg : tokens[c]? with
        | none => simp [hg] at h
        | some tk =>
          simp only [hg] at h ⊢
          cases hl : dictLookup m tk with
          | none => simp [hl] at h
          | some w =>
            simp only [hl] at h ⊢
            obtain ⟨raw, hraw, heq⟩ := ih _ _ _ h
            refine ⟨w :: raw, by simp [hraw], ?_⟩
            rw [dedupFirstAux]
            by_cases hw : w ∈ acc
            · rw [if_pos hw] at heq
              rw [if_pos hw]
              exact heq
            · rw [if_neg hw] at heq
              rw [if_neg hw]
              rw [heq]
              simp
      · rw [if_neg hp] at h ⊢
        exact ih _ _ _ h

/-- C9: a list successfully returned by get_typo_indexes contains each word
index at most once and in the order of its first detection: it equals the raw
sequence of word indices of the flagged positions in scan order
(detected_word_sequence) with every repeated detection removed, each index
kept at the position of its first detection --- even when several sub-word
tokens of the same word are flagged --- and in particular it has no
duplicates. -/
theorem get_typo_indexes_nodup_first_order (result : List (List (List Int)))
    (m : List (List Char × Int)) (tokens : List (List Char)) (ws : List Int)
    (h : get_typo_indexes result m tokens = .ok ws) :
    ws.Nodup ∧
    ∃ raw, detected_word_sequence result m tokens = .ok raw ∧ ws = dedupFirst raw := by
  match result with
  | [] => simp [get_typo_indexes] at h
  | row :: rest =>
    rw [get_typo_indexes] at h
    obtain ⟨raw, hraw, heq⟩ := gti_loop_eq_dedup m tokens _ 0 [] ws h
    simp only [List.nil_append] at heq
    refine ⟨?_, raw, ?_, ?_⟩
    · rw [heq]
      exact (dedupFirstAux_spec raw []).2
    · rw [detected_word_sequence]
      exact hraw
    · rw [heq, dedupFirst]

/-- Witness for the C9 theorem: positions 1 and 2 both flag sub-word tokens
of word 0, the raw detection sequence is [0, 0], and the returned list keeps
the first detection only. -/
theorem get_typo_indexes_nodup_first_order_witness :
    get_typo_indexes [[[9], [0, 5], [0, 5], [0]]]
        (token_to_words ["ab".toList, "##c".toList]) ["ab".toList, "##c".toList] =
      .ok [0] ∧
    (List.Nodup ([0] : List Int) ∧
      ∃ raw, detected_word_sequence [[[9], [0, 5], [0, 5], [0]]]
          (token_to_words ["ab".toList, "##c".toList]) ["ab".toList, "##c".toList] =
        .ok raw ∧ ([0] : List Int) = dedupFirst raw) :=
  ⟨rfl, get_typo_indexes_nodup_first_order [[[9], [0, 5], [0, 5], [0]]]
    (token_to_words ["ab".toList, "##c".toList]) ["ab".toList, "##c".toList] [0] rfl⟩

end OVNB
